import Mathlib

/-!
Verification development for the procedural noise library in
`src/terrain/noise.cpp` (Perlin noise, Simplex noise, fBM, Diamond-Square).

Modelling conventions:
* C++ `double`/`float` arithmetic is embedded as exact rational arithmetic
  over `ℚ` (an idealization of floating point; all claims treated here are
  about algebraic structure and ranges, not rounding).
* `std::shuffle` over `std::default_random_engine` is implementation-defined
  by the C++ standard; it is modelled as the classic Fisher-Yates shuffle
  driven by minstd_rand0 (the libstdc++ default engine:
  `x := 16807 * x mod 2147483647`, a zero seed replaced by 1), one engine
  draw per swap.  Every property proved below about the resulting table
  (being a permutation) holds for any shuffle of this shape.
* `std::mt19937` with `std::uniform_real_distribution<float>(-1,1)` in the
  Diamond-Square generator is modelled as an abstract stream
  `draws : ℕ → ℚ` consumed in program order; no claim below depends on the
  concrete values drawn.
* `pow(2.0f, -roughness)` (the per-round decay of the random range) is kept
  as an explicit rational parameter `decay`, since it is irrational for
  general `roughness`; no claim depends on its value.
* `sqrt(3.0)` is the IEEE-754 double nearest to the square root of 3,
  an exact dyadic rational.
-/

set_option maxRecDepth 8000

set_option allowUnsafeReducibility true in
attribute [semireducible] Rat.add Rat.sub Rat.mul Rat.div Rat.inv

/-- State transition of minstd_rand0, the libstdc++ `std::default_random_engine`. -/
def lcgNext (s : ℕ) : ℕ := (16807 * s) % 2147483647

/-- Seeding of minstd_rand0: the seed is reduced mod the modulus and a zero
state is replaced by 1. -/
def lcgInit (seed : ℕ) : ℕ :=
  let s := seed % 2147483647
  if s = 0 then 1 else s

/-- Swap steps of the Fisher-Yates shuffle of a 256-entry table: for index
`i` from 255 down to 1, draw the engine and pick `j := draw % (i+1)`, then
swap entries `i` and `j`.  Models the `std::shuffle(p.begin(), p.end(), engine)`
call in both noise constructors. -/
def fySteps : ℕ → ℕ → List (Fin 256 × Fin 256)
  | 0, _ => []
  | k + 1, s =>
    let s' := lcgNext s
    (⟨(k + 1) % 256, Nat.mod_lt _ (by norm_num)⟩,
     ⟨s' % (k + 2) % 256, Nat.mod_lt _ (by norm_num)⟩) :: fySteps k s'

/-- Swapping the entries at positions `p.1` and `p.2` of a table viewed as a
function on indices. -/
def applySwap (f : Fin 256 → Fin 256) (p : Fin 256 × Fin 256) : Fin 256 → Fin 256 :=
  fun x => if x = p.1 then f p.2 else if x = p.2 then f p.1 else f x

/-- The shuffled 256-entry base permutation table built from a seed, as a
function on indices (the vector `p` right after `std::shuffle` in
`PerlinNoise::PerlinNoise`, identically the vector `p` in
`SimplexNoise::SimplexNoise`). -/
def basePermFun (seed : ℕ) : Fin 256 → Fin 256 :=
  (fySteps 255 (lcgInit seed)).foldl applySwap id

/-- The base table as a list of 256 natural numbers. -/
def baseTableList (seed : ℕ) : List ℕ :=
  (List.range 256).map fun i => (basePermFun seed ⟨i % 256, Nat.mod_lt _ (by norm_num)⟩).val

/-- The Perlin permutation vector after `p.insert(p.end(), p.begin(), p.end())`:
the base permutation stored twice back-to-back, 512 entries. -/
def perlinPList (seed : ℕ) : List ℕ :=
  baseTableList seed ++ baseTableList seed

/-- The Simplex permutation vector: 512 entries with `perm[i] = p[i & 255]`. -/
def simplexPermList (seed : ℕ) : List ℕ :=
  (List.range 512).map fun i => (baseTableList seed).getD (i % 256) 0

/-- Index lookup in the (conceptually 512-entry) Perlin table; all indices
used by `PerlinNoise::noise` are below 512, where this agrees with the
doubled vector. -/
def perlinTableFun (seed : ℕ) : ℕ → ℕ :=
  fun i => (basePermFun seed ⟨i % 256, Nat.mod_lt _ (by norm_num)⟩).val

/-- Index lookup in the Simplex table; all indices used by
`SimplexNoise::noise2D` are below 512. -/
def simplexTableFun (seed : ℕ) : ℕ → ℕ :=
  fun i => (simplexPermList seed).getD i 0

-- Basic facts about the table construction.

theorem applySwap_eq_comp (f : Fin 256 → Fin 256) (p : Fin 256 × Fin 256) :
    applySwap f p = f ∘ (Equiv.swap p.1 p.2) := by
  funext x
  show (if x = p.1 then f p.2 else if x = p.2 then f p.1 else f x) = f (Equiv.swap p.1 p.2 x)
  rw [Equiv.swap_apply_def]
  split_ifs <;> rfl

theorem foldl_applySwap_bijective (l : List (Fin 256 × Fin 256)) :
    ∀ f : Fin 256 → Fin 256, Function.Bijective f →
      Function.Bijective (l.foldl applySwap f) := by
  induction l with
  | nil => intro f hf; simpa only [List.foldl_nil] using hf
  | cons p t ih =>
    intro f hf
    simp only [List.foldl_cons]
    exact ih _ (by rw [applySwap_eq_comp]; exact hf.comp (Equiv.swap p.1 p.2).bijective)

theorem basePermFun_bijective (seed : ℕ) : Function.Bijective (basePermFun seed) :=
  foldl_applySwap_bijective _ id Function.bijective_id

theorem rangeMap_getD (g : ℕ → ℕ) {n i : ℕ} (h : i < n) :
    ((List.range n).map g).getD i 0 = g i := by
  rw [List.getD_eq_getElem _ _ (by simpa using h)]
  simp

-- =========================================================================
-- Perlin noise (PerlinNoise::noise), over exact rationals.
-- =========================================================================

/-- Fade function `6t^5 - 15t^4 + 10t^3` as written in the source. -/
def fade (t : ℚ) : ℚ := t * t * t * (t * (t * 6 - 15) + 10)

/-- Linear interpolation `a + t * (b - a)`. -/
def lerp (t a b : ℚ) : ℚ := a + t * (b - a)

/-- Gradient function: `h := hash & 15`, `u := h<8 ? x : y`,
`v := h<4 ? y : (h==12||h==14 ? x : z)`, result `(±u) + (±v)` by bits 0 and 1
of `h`. -/
def pgrad (hash : ℕ) (x y z : ℚ) : ℚ :=
  let h := hash % 16
  let u := if h < 8 then x else y
  let v := if h < 4 then y else if h = 12 ∨ h = 14 then x else z
  (if h % 2 = 0 then u else -u) + (if h / 2 % 2 = 0 then v else -v)

/-- The raw trilinear blend `res` computed by `PerlinNoise::noise` before
normalization.  `X,Y,Z` are `(int)floor(coord) & 255` (bitwise AND on a
two's-complement int, i.e. the nonnegative residue mod 256), and the
fractional offsets are `coord - floor(coord)`. -/
def perlinRes (p : ℕ → ℕ) (x y z : ℚ) : ℚ :=
  let X : ℕ := ((⌊x⌋ : ℤ) % 256).toNat
  let Y : ℕ := ((⌊y⌋ : ℤ) % 256).toNat
  let Z : ℕ := ((⌊z⌋ : ℤ) % 256).toNat
  let u := fade (Int.fract x)
  let v := fade (Int.fract y)
  let w := fade (Int.fract z)
  let A := p X + Y
  let AA := p A + Z
  let AB := p (A + 1) + Z
  let B := p (X + 1) + Y
  let BA := p B + Z
  let BB := p (B + 1) + Z
  lerp w
    (lerp v
      (lerp u (pgrad (p AA) (Int.fract x) (Int.fract y) (Int.fract z))
              (pgrad (p BA) (Int.fract x - 1) (Int.fract y) (Int.fract z)))
      (lerp u (pgrad (p AB) (Int.fract x) (Int.fract y - 1) (Int.fract z))
              (pgrad (p BB) (Int.fract x - 1) (Int.fract y - 1) (Int.fract z))))
    (lerp v
      (lerp u (pgrad (p (AA + 1)) (Int.fract x) (Int.fract y) (Int.fract z - 1))
              (pgrad (p (BA + 1)) (Int.fract x - 1) (Int.fract y) (Int.fract z - 1)))
      (lerp u (pgrad (p (AB + 1)) (Int.fract x) (Int.fract y - 1) (Int.fract z - 1))
              (pgrad (p (BB + 1)) (Int.fract x - 1) (Int.fract y - 1) (Int.fract z - 1))))

/-- The value returned by `PerlinNoise::noise`: the raw blend normalized via
`(res + 1) / 2`. -/
def perlinNoise (p : ℕ → ℕ) (x y z : ℚ) : ℚ := (perlinRes p x y z + 1) / 2

/-- The 2D convenience member `PerlinNoise::noise2D`, `noise(x, y, 0)`. -/
def perlinNoise2D (p : ℕ → ℕ) (x y : ℚ) : ℚ := perlinNoise p x y 0

-- =========================================================================
-- Claim C2: the table built from any seed is a permutation of 0..255.
-- =========================================================================

theorem baseTableList_length (seed : ℕ) : (baseTableList seed).length = 256 := by
  simp [baseTableList]

theorem baseTableList_nodup (seed : ℕ) : (baseTableList seed).Nodup := by
  refine List.Nodup.map_on ?_ (List.nodup_range 256)
  intro a ha b hb hfab
  simp only [List.mem_range] at ha hb
  have hab : (⟨a % 256, Nat.mod_lt _ (by norm_num)⟩ : Fin 256) =
      ⟨b % 256, Nat.mod_lt _ (by norm_num)⟩ :=
    (basePermFun_bijective seed).injective (Fin.val_injective hfab)
  have h2 : a % 256 = b % 256 := Fin.mk.inj_iff.mp hab
  rwa [Nat.mod_eq_of_lt ha, Nat.mod_eq_of_lt hb] at h2

theorem baseTableList_mem (seed : ℕ) {v : ℕ} (hv : v < 256) : v ∈ baseTableList seed := by
  obtain ⟨a, ha⟩ := (basePermFun_bijective seed).surjective ⟨v, hv⟩
  refine List.mem_map.mpr ⟨a.val, List.mem_range.mpr a.isLt, ?_⟩
  have hmk : (⟨a.val % 256, Nat.mod_lt _ (by norm_num)⟩ : Fin 256) = a :=
    Fin.ext (Nat.mod_eq_of_lt a.isLt)
  rw [hmk, ha]

/-- C2: for every seed, the 256 base entries of the shuffled table contain each
value 0..255 exactly once; the Perlin vector stores this permutation twice
back-to-back (512 entries) and the Simplex vector has 512 entries with
`perm[i] = base[i mod 256]`.  (The embedding is pure, so no mutation after
construction is possible by construction.) -/
theorem C2_table_is_permutation (seed : ℕ) :
    ((baseTableList seed).length = 256 ∧
      ∀ v : ℕ, v < 256 → (baseTableList seed).count v = 1) ∧
    perlinPList seed = baseTableList seed ++ baseTableList seed ∧
    (perlinPList seed).length = 512 ∧
    (simplexPermList seed).length = 512 ∧
    ∀ i : ℕ, i < 512 →
      (simplexPermList seed).getD i 0 = (baseTableList seed).getD (i % 256) 0 := by
  refine ⟨⟨baseTableList_length seed, fun v hv =>
    List.count_eq_one_of_mem (baseTableList_nodup seed) (baseTableList_mem seed hv)⟩,
    rfl, ?_, ?_, fun i hi => rangeMap_getD _ hi⟩
  · simp [perlinPList, baseTableList]
  · simp [simplexPermList]

/-- Witness for C2 at seed 0 with concrete value 7 and concrete index 300. -/
theorem C2_table_is_permutation_witness :
    (baseTableList 0).count 7 = 1 ∧
      (simplexPermList 0).getD 300 0 = (baseTableList 0).getD 44 0 := by
  refine ⟨(C2_table_is_permutation 0).1.2 7 (by norm_num), ?_⟩
  have h := (C2_table_is_permutation 0).2.2.2.2 300 (by norm_num)
  norm_num at h
  exact h

-- =========================================================================
-- Bounds for the Perlin primitives (towards claim C1).
-- =========================================================================

theorem fade_mem {t : ℚ} (h0 : 0 ≤ t) (h1 : t ≤ 1) : 0 ≤ fade t ∧ fade t ≤ 1 := by
  have e1 : fade t = t ^ 3 * (6 * t ^ 2 - 15 * t + 10) := by unfold fade; ring
  have e2 : 1 - fade t = (1 - t) ^ 3 * (6 * t ^ 2 + 3 * t + 1) := by unfold fade; ring
  constructor
  · rw [e1]
    have hq : (0:ℚ) ≤ 6 * t ^ 2 - 15 * t + 10 := by nlinarith [sq_nonneg (2 * t - 5/2)]
    exact mul_nonneg (pow_nonneg h0 3) hq
  · have hq : (0:ℚ) ≤ (1 - t) ^ 3 * (6 * t ^ 2 + 3 * t + 1) :=
      mul_nonneg (pow_nonneg (by linarith) 3) (by nlinarith [sq_nonneg t])
    linarith [e2 ▸ hq]

theorem lerp_mem {t a b lo hi : ℚ} (ht0 : 0 ≤ t) (ht1 : t ≤ 1)
    (ha : lo ≤ a ∧ a ≤ hi) (hb : lo ≤ b ∧ b ≤ hi) :
    lo ≤ lerp t a b ∧ lerp t a b ≤ hi := by
  unfold lerp
  constructor
  · nlinarith [mul_nonneg (by linarith : (0:ℚ) ≤ 1 - t) (by linarith [ha.1] : (0:ℚ) ≤ a - lo),
      mul_nonneg ht0 (by linarith [hb.1] : (0:ℚ) ≤ b - lo)]
  · nlinarith [mul_nonneg (by linarith : (0:ℚ) ≤ 1 - t) (by linarith [ha.2] : (0:ℚ) ≤ hi - a),
      mul_nonneg ht0 (by linarith [hb.2] : (0:ℚ) ≤ hi - b)]

theorem pgrad_mem (hsh : ℕ) {x y z : ℚ} (hx : -1 ≤ x ∧ x ≤ 1) (hy : -1 ≤ y ∧ y ≤ 1)
    (hz : -1 ≤ z ∧ z ≤ 1) : -2 ≤ pgrad hsh x y z ∧ pgrad hsh x y z ≤ 2 := by
  obtain ⟨hx1, hx2⟩ := hx
  obtain ⟨hy1, hy2⟩ := hy
  obtain ⟨hz1, hz2⟩ := hz
  simp only [pgrad]
  split_ifs <;> constructor <;> linarith

theorem trilerp_bounds {u v w a1 a2 a3 a4 a5 a6 a7 a8 : ℚ}
    (hu : 0 ≤ u ∧ u ≤ 1) (hv : 0 ≤ v ∧ v ≤ 1) (hw : 0 ≤ w ∧ w ≤ 1)
    (h1 : -2 ≤ a1 ∧ a1 ≤ 2) (h2 : -2 ≤ a2 ∧ a2 ≤ 2) (h3 : -2 ≤ a3 ∧ a3 ≤ 2)
    (h4 : -2 ≤ a4 ∧ a4 ≤ 2) (h5 : -2 ≤ a5 ∧ a5 ≤ 2) (h6 : -2 ≤ a6 ∧ a6 ≤ 2)
    (h7 : -2 ≤ a7 ∧ a7 ≤ 2) (h8 : -2 ≤ a8 ∧ a8 ≤ 2) :
    -2 ≤ lerp w (lerp v (lerp u a1 a2) (lerp u a3 a4)) (lerp v (lerp u a5 a6) (lerp u a7 a8)) ∧
      lerp w (lerp v (lerp u a1 a2) (lerp u a3 a4)) (lerp v (lerp u a5 a6) (lerp u a7 a8)) ≤ 2 :=
  lerp_mem hw.1 hw.2 (lerp_mem hv.1 hv.2 (lerp_mem hu.1 hu.2 h1 h2) (lerp_mem hu.1 hu.2 h3 h4))
    (lerp_mem hv.1 hv.2 (lerp_mem hu.1 hu.2 h5 h6) (lerp_mem hu.1 hu.2 h7 h8))

theorem fract_mem (t : ℚ) : -1 ≤ Int.fract t ∧ Int.fract t ≤ 1 :=
  ⟨by linarith [Int.fract_nonneg t], (Int.fract_lt_one t).le⟩

theorem fract_sub_one_mem (t : ℚ) : -1 ≤ Int.fract t - 1 ∧ Int.fract t - 1 ≤ 1 :=
  ⟨by linarith [Int.fract_nonneg t], by linarith [Int.fract_lt_one t]⟩

theorem fade_fract_mem (t : ℚ) : 0 ≤ fade (Int.fract t) ∧ fade (Int.fract t) ≤ 1 :=
  fade_mem (Int.fract_nonneg t) (Int.fract_lt_one t).le

theorem perlinRes_bounds (p : ℕ → ℕ) (x y z : ℚ) :
    -2 ≤ perlinRes p x y z ∧ perlinRes p x y z ≤ 2 := by
  simp only [perlinRes]
  exact trilerp_bounds (fade_fract_mem x) (fade_fract_mem y) (fade_fract_mem z)
    (pgrad_mem _ (fract_mem x) (fract_mem y) (fract_mem z))
    (pgrad_mem _ (fract_sub_one_mem x) (fract_mem y) (fract_mem z))
    (pgrad_mem _ (fract_mem x) (fract_sub_one_mem y) (fract_mem z))
    (pgrad_mem _ (fract_sub_one_mem x) (fract_sub_one_mem y) (fract_mem z))
    (pgrad_mem _ (fract_mem x) (fract_mem y) (fract_sub_one_mem z))
    (pgrad_mem _ (fract_sub_one_mem x) (fract_mem y) (fract_sub_one_mem z))
    (pgrad_mem _ (fract_mem x) (fract_sub_one_mem y) (fract_sub_one_mem z))
    (pgrad_mem _ (fract_sub_one_mem x) (fract_sub_one_mem y) (fract_sub_one_mem z))

theorem perlinNoise_bounds (p : ℕ → ℕ) (x y z : ℚ) :
    -(1/2) ≤ perlinNoise p x y z ∧ perlinNoise p x y z ≤ 3/2 := by
  have h := perlinRes_bounds p x y z
  unfold perlinNoise
  constructor
  · linarith [h.1]
  · linarith [h.2]

-- =========================================================================
-- Simplex noise (SimplexNoise::noise2D), over exact rationals.
-- =========================================================================

/-- The IEEE-754 double closest to the square root of 3 (value of `sqrt(3.0)`),
as an exact dyadic rational. -/
def sqrt3 : ℚ := 3900231685776981 / 2251799813685248

/-- Skew factor `F2 = 0.5 * (sqrt(3.0) - 1.0)`. -/
def simplexF2 : ℚ := 1/2 * (sqrt3 - 1)

/-- Unskew factor `G2 = (3.0 - sqrt(3.0)) / 6.0`. -/
def simplexG2 : ℚ := (3 - sqrt3) / 6

/-- First two components of the rows of the gradient table `grad3` (the third
component is unused by 2D `dot`). -/
def grad3 : List (ℤ × ℤ) :=
  [(1, 1), (-1, 1), (1, -1), (-1, -1), (1, 0), (-1, 0),
   (1, 0), (-1, 0), (0, 1), (0, -1), (0, 1), (0, -1)]

/-- The 2D dot product `g[0]*x + g[1]*y`. -/
def dotG (g : ℤ × ℤ) (x y : ℚ) : ℚ := (g.1 : ℚ) * x + (g.2 : ℚ) * y

/-- One corner contribution of `SimplexNoise::noise2D`: with
`t = 0.5 - x*x - y*y`, the contribution is 0 if `t < 0`, else
`(t*t)*(t*t) * dot(g, x, y)` (the source squares `t` in place and then uses
`t0 * t0 * dot`). -/
def simplexCorner (g : ℤ × ℤ) (x y : ℚ) : ℚ :=
  let t := 1/2 - x * x - y * y
  if t < 0 then 0 else t * t * (t * t) * dotG g x y

/-- The value returned by `SimplexNoise::noise2D`, including the final scaling
`(70*(n0+n1+n2) + 1) / 2`.  `fastfloor` is exactly the mathematical floor, and
`i & 255` on a two's-complement int is the nonnegative residue mod 256. -/
def simplexNoise2D (perm : ℕ → ℕ) (xin yin : ℚ) : ℚ :=
  let s := (xin + yin) * simplexF2
  let i : ℤ := ⌊xin + s⌋
  let j : ℤ := ⌊yin + s⌋
  let t : ℚ := ((i + j : ℤ) : ℚ) * simplexG2
  let x0 := xin - ((i : ℚ) - t)
  let y0 := yin - ((j : ℚ) - t)
  let i1 : ℕ := if y0 < x0 then 1 else 0
  let j1 : ℕ := if y0 < x0 then 0 else 1
  let x1 := x0 - (i1 : ℚ) + simplexG2
  let y1 := y0 - (j1 : ℚ) + simplexG2
  let x2 := x0 - 1 + 2 * simplexG2
  let y2 := y0 - 1 + 2 * simplexG2
  let ii : ℕ := ((i % 256 : ℤ)).toNat
  let jj : ℕ := ((j % 256 : ℤ)).toNat
  let gi0 := perm (ii + perm jj) % 12
  let gi1 := perm (ii + i1 + perm (jj + j1)) % 12
  let gi2 := perm (ii + 1 + perm (jj + 1)) % 12
  let n0 := simplexCorner (grad3.getD gi0 (0, 0)) x0 y0
  let n1 := simplexCorner (grad3.getD gi1 (0, 0)) x1 y1
  let n2 := simplexCorner (grad3.getD gi2 (0, 0)) x2 y2
  (70 * (n0 + n1 + n2) + 1) / 2

theorem grad3_getD_bounds (n : ℕ) :
    (-1 ≤ (grad3.getD n (0, 0)).1 ∧ (grad3.getD n (0, 0)).1 ≤ 1) ∧
      (-1 ≤ (grad3.getD n (0, 0)).2 ∧ (grad3.getD n (0, 0)).2 ≤ 1) := by
  by_cases h : n < 12
  · have h12 : ∀ m : Fin 12,
        (-1 ≤ (grad3.getD m.val (0, 0)).1 ∧ (grad3.getD m.val (0, 0)).1 ≤ 1) ∧
          (-1 ≤ (grad3.getD m.val (0, 0)).2 ∧ (grad3.getD m.val (0, 0)).2 ≤ 1) := by decide
    exact h12 ⟨n, h⟩
  · have hlen : grad3.length ≤ n := by
      simp only [grad3, List.length]
      omega
    rw [List.getD_eq_default _ _ hlen]
    norm_num

theorem dotG_abs_le (g : ℤ × ℤ) (x y : ℚ)
    (hg : (-1 ≤ g.1 ∧ g.1 ≤ 1) ∧ (-1 ≤ g.2 ∧ g.2 ≤ 1)) :
    |dotG g x y| ≤ |x| + |y| := by
  have hg1l : (-1 : ℚ) ≤ (g.1 : ℚ) := by exact_mod_cast hg.1.1
  have hg1u : ((g.1 : ℚ)) ≤ 1 := by exact_mod_cast hg.1.2
  have hg2l : (-1 : ℚ) ≤ (g.2 : ℚ) := by exact_mod_cast hg.2.1
  have hg2u : ((g.2 : ℚ)) ≤ 1 := by exact_mod_cast hg.2.2
  have habs1 : |(g.1 : ℚ) * x| ≤ |x| := by
    rw [abs_mul]
    calc |(g.1 : ℚ)| * |x| ≤ 1 * |x| :=
          mul_le_mul_of_nonneg_right (abs_le.mpr ⟨hg1l, hg1u⟩) (abs_nonneg x)
      _ = |x| := one_mul _
  have habs2 : |(g.2 : ℚ) * y| ≤ |y| := by
    rw [abs_mul]
    calc |(g.2 : ℚ)| * |y| ≤ 1 * |y| :=
          mul_le_mul_of_nonneg_right (abs_le.mpr ⟨hg2l, hg2u⟩) (abs_nonneg y)
      _ = |y| := one_mul _
  unfold dotG
  calc |(g.1 : ℚ) * x + (g.2 : ℚ) * y| ≤ |(g.1 : ℚ) * x| + |(g.2 : ℚ) * y| := abs_add _ _
    _ ≤ |x| + |y| := add_le_add habs1 habs2

theorem simplexCorner_bound (g : ℤ × ℤ) (x y : ℚ)
    (hg : (-1 ≤ g.1 ∧ g.1 ≤ 1) ∧ (-1 ≤ g.2 ∧ g.2 ≤ 1)) :
    -(1/16) ≤ simplexCorner g x y ∧ simplexCorner g x y ≤ 1/16 := by
  simp only [simplexCorner]
  by_cases h : (1/2 - x * x - y * y : ℚ) < 0
  · rw [if_pos h]; norm_num
  · rw [if_neg h]
    push_neg at h
    have hs : x * x + y * y ≤ 1/2 := by linarith
    have ht12 : (1/2 - x * x - y * y : ℚ) ≤ 1/2 := by
      nlinarith [mul_self_nonneg x, mul_self_nonneg y]
    have hT0 : (0:ℚ) ≤ (1/2 - x * x - y * y) * (1/2 - x * x - y * y) *
        ((1/2 - x * x - y * y) * (1/2 - x * x - y * y)) := by positivity
    have h2 : (1/2 - x * x - y * y : ℚ) * (1/2 - x * x - y * y) ≤ 1/4 := by nlinarith
    have hT16 : (1/2 - x * x - y * y : ℚ) * (1/2 - x * x - y * y) *
        ((1/2 - x * x - y * y) * (1/2 - x * x - y * y)) ≤ 1/16 := by
      nlinarith [mul_self_nonneg (1/2 - x * x - y * y : ℚ)]
    have hxyabs : |x| + |y| ≤ 1 := by
      nlinarith [sq_abs x, sq_abs y, sq_nonneg (|x| - |y|), abs_nonneg x, abs_nonneg y, hs]
    have hdabs : |dotG g x y| ≤ 1 := (dotG_abs_le g x y hg).trans hxyabs
    have hprod : |(1/2 - x * x - y * y : ℚ) * (1/2 - x * x - y * y) *
        ((1/2 - x * x - y * y) * (1/2 - x * x - y * y)) * dotG g x y| ≤ 1/16 := by
      rw [abs_mul, abs_of_nonneg hT0]
      calc (1/2 - x * x - y * y : ℚ) * (1/2 - x * x - y * y) *
            ((1/2 - x * x - y * y) * (1/2 - x * x - y * y)) * |dotG g x y|
          ≤ (1/2 - x * x - y * y : ℚ) * (1/2 - x * x - y * y) *
            ((1/2 - x * x - y * y) * (1/2 - x * x - y * y)) * 1 :=
            mul_le_mul_of_nonneg_left hdabs hT0
        _ ≤ 1/16 := by rw [mul_one]; exact hT16
    exact abs_le.mp hprod

theorem simplexSum_bound {n0 n1 n2 : ℚ}
    (h0 : -(1/16) ≤ n0 ∧ n0 ≤ 1/16) (h1 : -(1/16) ≤ n1 ∧ n1 ≤ 1/16)
    (h2 : -(1/16) ≤ n2 ∧ n2 ≤ 1/16) :
    -(97/16) ≤ (70 * (n0 + n1 + n2) + 1) / 2 ∧ (70 * (n0 + n1 + n2) + 1) / 2 ≤ 113/16 := by
  constructor
  · linarith [h0.1, h1.1, h2.1]
  · linarith [h0.2, h1.2, h2.2]

theorem simplexNoise2D_bounds (perm : ℕ → ℕ) (x y : ℚ) :
    -(97/16) ≤ simplexNoise2D perm x y ∧ simplexNoise2D perm x y ≤ 113/16 := by
  simp only [simplexNoise2D]
  exact simplexSum_bound (simplexCorner_bound _ _ _ (grad3_getD_bounds _))
    (simplexCorner_bound _ _ _ (grad3_getD_bounds _))
    (simplexCorner_bound _ _ _ (grad3_getD_bounds _))

-- =========================================================================
-- Claim C1: range of the normalized noise values.
-- =========================================================================

/-- C1: the claimed (and source-documented: `PerlinNoise::noise` returns with
the comment that the result is normalized to [0, 1]) range is violated by the
code: with seed 0 at (x,y,z) = (483/2, 23/2, 291/20) the returned value is
exactly 64650997/64000000 ≈ 1.0102 > 1.  (The general envelope actually
guaranteed by the arithmetic is `perlinNoise_bounds`.) -/
theorem C1_perlin_range_bug :
    perlinNoise (perlinTableFun 0) (483/2) (23/2) (291/20) = 64650997/64000000 ∧
    ¬ (0 ≤ perlinNoise (perlinTableFun 0) (483/2) (23/2) (291/20) ∧
        perlinNoise (perlinTableFun 0) (483/2) (23/2) (291/20) ≤ 1) := by
  constructor
  · decide
  · decide

-- =========================================================================
-- The standalone functions with their static (process-wide) engines.
-- =========================================================================

/-- Process state of `generatePerlinNoise`: the seed its `static PerlinNoise
perlin(seed)` was constructed with on the first call, or `none` before any
call. -/
def perlinCall (st : Option ℕ) (x y z : ℚ) (seed : ℕ) : ℚ × Option ℕ :=
  match st with
  | none => (perlinNoise (perlinTableFun seed) x y z, some seed)
  | some s0 => (perlinNoise (perlinTableFun s0) x y z, some s0)

/-- Process state of `generateSimplexNoise`, analogous to `perlinCall`. -/
def simplexCall (st : Option ℕ) (x y : ℚ) (seed : ℕ) : ℚ × Option ℕ :=
  match st with
  | none => (simplexNoise2D (simplexTableFun seed) x y, some seed)
  | some s0 => (simplexNoise2D (simplexTableFun s0) x y, some s0)

/-- C3 counterexample: after a first call with seed 1, a call of
`generatePerlinNoise(1/2, 1/2, 1/2, 2)` does not agree with a fresh engine
built from seed 2 (the static engine keeps the first seed: the call returns
9/16 while a fresh seed-2 engine returns 5/16). -/
theorem C3_fresh_instance_counterexample :
    (perlinCall (perlinCall none 0 0 0 1).2 (1/2) (1/2) (1/2) 2).1 ≠
      perlinNoise (perlinTableFun 2) (1/2) (1/2) (1/2) := by
  decide

/-- C3 amended: repeated calls of the standalone functions with identical
arguments agree (the static engine is fixed after the first call), and a call
agrees with a fresh engine built from the given seed provided the static
engine is uninitialized or was initialized with that same seed. -/
theorem C3_determinism_amended :
    (∀ (st : Option ℕ) (x y z : ℚ) (seed : ℕ),
        (perlinCall st x y z seed).1 =
          (perlinCall (perlinCall st x y z seed).2 x y z seed).1 ∧
        (st = none ∨ st = some seed →
          (perlinCall st x y z seed).1 = perlinNoise (perlinTableFun seed) x y z)) ∧
    (∀ (st : Option ℕ) (x y : ℚ) (seed : ℕ),
        (simplexCall st x y seed).1 =
          (simplexCall (simplexCall st x y seed).2 x y seed).1 ∧
        (st = none ∨ st = some seed →
          (simplexCall st x y seed).1 = simplexNoise2D (simplexTableFun seed) x y)) := by
  constructor
  · intro st x y z seed
    cases st with
    | none => exact ⟨rfl, fun _ => rfl⟩
    | some s0 =>
      refine ⟨rfl, fun h => ?_⟩
      rcases h with h | h
      · exact absurd h (Option.some_ne_none s0)
      · rw [Option.some_inj.mp h]
        rfl
  · intro st x y seed
    cases st with
    | none => exact ⟨rfl, fun _ => rfl⟩
    | some s0 =>
      refine ⟨rfl, fun h => ?_⟩
      rcases h with h | h
      · exact absurd h (Option.some_ne_none s0)
      · rw [Option.some_inj.mp h]
        rfl

/-- Witness for C3 amended: uninitialized state, seed 3, a concrete point. -/
theorem C3_determinism_amended_witness :
    (perlinCall none 1 2 3 3).1 = perlinNoise (perlinTableFun 3) 1 2 3 :=
  (C3_determinism_amended.1 none 1 2 3 3).2 (Or.inl rfl)

-- =========================================================================
-- fBM (generatePerlinFBM / generateSimplexFBM).
-- =========================================================================

/-- Accumulator of the fBM loop: (total, frequency, amplitude, maxValue),
initialized to (0, 1, 1, 0). -/
structure FBMState where
  total : ℚ
  frequency : ℚ
  amplitude : ℚ
  maxValue : ℚ
  deriving DecidableEq

/-- One iteration of the fBM loop body, iterated `octaves` times:
`total += noise(x*frequency, y*frequency) * amplitude;
maxValue += amplitude; amplitude *= persistence; frequency *= lacunarity`. -/
def fbmLoop (noisef : ℚ → ℚ → ℚ) (x y persistence lacunarity : ℚ) :
    ℕ → FBMState → FBMState
  | 0, st => st
  | n + 1, st =>
    fbmLoop noisef x y persistence lacunarity n
      { total := st.total + noisef (x * st.frequency) (y * st.frequency) * st.amplitude
        frequency := st.frequency * lacunarity
        amplitude := st.amplitude * persistence
        maxValue := st.maxValue + st.amplitude }

/-- Initial fBM accumulator. -/
def fbmInit : FBMState := ⟨0, 1, 1, 0⟩

/-- Final loop state of `generatePerlinFBM` (a fresh Perlin engine is built
from the seed on every call; the `for (int i = 0; i < octaves; i++)` loop
runs `max octaves 0` times). -/
def perlinFBMState (x y : ℚ) (octaves : ℤ) (persistence lacunarity : ℚ)
    (seed : ℕ) : FBMState :=
  fbmLoop (perlinNoise2D (perlinTableFun seed)) x y persistence lacunarity
    octaves.toNat fbmInit

/-- The value returned by `generatePerlinFBM`: `total / maxValue`. -/
def generatePerlinFBM (x y : ℚ) (octaves : ℤ) (persistence lacunarity : ℚ)
    (seed : ℕ) : ℚ :=
  (perlinFBMState x y octaves persistence lacunarity seed).total /
    (perlinFBMState x y octaves persistence lacunarity seed).maxValue

/-- Final loop state of `generateSimplexFBM`. -/
def simplexFBMState (x y : ℚ) (octaves : ℤ) (persistence lacunarity : ℚ)
    (seed : ℕ) : FBMState :=
  fbmLoop (simplexNoise2D (simplexTableFun seed)) x y persistence lacunarity
    octaves.toNat fbmInit

/-- The value returned by `generateSimplexFBM`: `total / maxValue`. -/
def generateSimplexFBM (x y : ℚ) (octaves : ℤ) (persistence lacunarity : ℚ)
    (seed : ℕ) : ℚ :=
  (simplexFBMState x y octaves persistence lacunarity seed).total /
    (simplexFBMState x y octaves persistence lacunarity seed).maxValue

/-- C6: with `octaves <= 0` both fBM functions run zero accumulation
iterations, leaving `total = 0` and `maxValue = 0`, and return the division
`0 / 0` (the division-by-zero that yields NaN in the C++ code; `ℚ` assigns
the junk value 0) instead of rejecting the input: the embedded functions are
total and have no error path. -/
theorem C6_fbm_octaves_nonpositive (x y persistence lacunarity : ℚ) (seed : ℕ)
    (octaves : ℤ) (h : octaves ≤ 0) :
    perlinFBMState x y octaves persistence lacunarity seed = fbmInit ∧
    (perlinFBMState x y octaves persistence lacunarity seed).total = 0 ∧
    (perlinFBMState x y octaves persistence lacunarity seed).maxValue = 0 ∧
    generatePerlinFBM x y octaves persistence lacunarity seed = 0 / 0 ∧
    simplexFBMState x y octaves persistence lacunarity seed = fbmInit ∧
    (simplexFBMState x y octaves persistence lacunarity seed).total = 0 ∧
    (simplexFBMState x y octaves persistence lacunarity seed).maxValue = 0 ∧
    generateSimplexFBM x y octaves persistence lacunarity seed = 0 / 0 := by
  have ht : octaves.toNat = 0 := Int.toNat_of_nonpos h
  have hp : perlinFBMState x y octaves persistence lacunarity seed = fbmInit := by
    unfold perlinFBMState
    rw [ht]
    rfl
  have hs : simplexFBMState x y octaves persistence lacunarity seed = fbmInit := by
    unfold simplexFBMState
    rw [ht]
    rfl
  refine ⟨hp, by rw [hp]; rfl, by rw [hp]; rfl, ?_, hs, by rw [hs]; rfl, by rw [hs]; rfl, ?_⟩
  · unfold generatePerlinFBM
    rw [hp]
    rfl
  · unfold generateSimplexFBM
    rw [hs]
    rfl

/-- Witness for C6 at octaves = -3. -/
theorem C6_fbm_octaves_nonpositive_witness :
    (perlinFBMState 1 2 (-3) (1/2) 2 0).maxValue = 0 ∧
      generatePerlinFBM 1 2 (-3) (1/2) 2 0 = 0 / 0 :=
  ⟨(C6_fbm_octaves_nonpositive 1 2 (1/2) 2 0 (-3) (by norm_num)).2.2.1,
   (C6_fbm_octaves_nonpositive 1 2 (1/2) 2 0 (-3) (by norm_num)).2.2.2.1⟩

theorem fbmLoop_invariant (noisef : ℚ → ℚ → ℚ) (x y persistence lacunarity : ℚ)
    (hp : 0 ≤ persistence) :
    ∀ (n k : ℕ) (st : FBMState),
      0 ≤ st.amplitude →
      st.frequency = lacunarity ^ k →
      (∀ i : ℕ, k ≤ i → i < k + n →
        0 ≤ noisef (x * lacunarity ^ i) (y * lacunarity ^ i) ∧
          noisef (x * lacunarity ^ i) (y * lacunarity ^ i) ≤ 1) →
      0 ≤ (fbmLoop noisef x y persistence lacunarity n st).total - st.total ∧
      (fbmLoop noisef x y persistence lacunarity n st).total - st.total ≤
        (fbmLoop noisef x y persistence lacunarity n st).maxValue - st.maxValue ∧
      (1 ≤ n → st.amplitude ≤
        (fbmLoop noisef x y persistence lacunarity n st).maxValue - st.maxValue) := by
  intro n
  induction n with
  | zero =>
    intro k st _ _ _
    simp only [fbmLoop]
    refine ⟨by linarith, by linarith, fun h => absurd h (by norm_num)⟩
  | succ m ih =>
    intro k st hamp hfreq hnoise
    have hv := hnoise k (le_refl k) (by omega)
    rw [← hfreq] at hv
    have hstep := ih (k + 1)
      { total := st.total + noisef (x * st.frequency) (y * st.frequency) * st.amplitude
        frequency := st.frequency * lacunarity
        amplitude := st.amplitude * persistence
        maxValue := st.maxValue + st.amplitude }
      (mul_nonneg hamp hp)
      (show st.frequency * lacunarity = lacunarity ^ (k + 1) by rw [hfreq, pow_succ])
      (fun i hi1 hi2 => hnoise i (by omega) (by omega))
    have hinc0 : 0 ≤ noisef (x * st.frequency) (y * st.frequency) * st.amplitude :=
      mul_nonneg hv.1 hamp
    have hinc1 : noisef (x * st.frequency) (y * st.frequency) * st.amplitude ≤
        st.amplitude := by
      calc noisef (x * st.frequency) (y * st.frequency) * st.amplitude ≤
            1 * st.amplitude := mul_le_mul_of_nonneg_right hv.2 hamp
        _ = st.amplitude := one_mul _
    obtain ⟨ha, hb, _⟩ := hstep
    dsimp only at ha hb
    simp only [fbmLoop]
    refine ⟨by linarith, by linarith, fun _ => by linarith⟩

theorem fbm_range (noisef : ℚ → ℚ → ℚ) (x y persistence lacunarity : ℚ)
    (hp : 0 ≤ persistence) (octaves : ℤ) (ho : 1 ≤ octaves)
    (hn : ∀ i : ℕ, i < octaves.toNat →
      0 ≤ noisef (x * lacunarity ^ i) (y * lacunarity ^ i) ∧
        noisef (x * lacunarity ^ i) (y * lacunarity ^ i) ≤ 1) :
    0 ≤ (fbmLoop noisef x y persistence lacunarity octaves.toNat fbmInit).total /
        (fbmLoop noisef x y persistence lacunarity octaves.toNat fbmInit).maxValue ∧
      (fbmLoop noisef x y persistence lacunarity octaves.toNat fbmInit).total /
        (fbmLoop noisef x y persistence lacunarity octaves.toNat fbmInit).maxValue ≤ 1 := by
  have h1 : 1 ≤ octaves.toNat := by omega
  have hinv := fbmLoop_invariant noisef x y persistence lacunarity hp octaves.toNat 0 fbmInit
    (by norm_num [fbmInit]) (by norm_num [fbmInit]) (fun i hi1 hi2 => hn i (by omega))
  obtain ⟨ha, hb, hc⟩ := hinv
  have hc1 := hc h1
  rw [show fbmInit.total = 0 from rfl] at ha hb
  rw [show fbmInit.maxValue = 0 from rfl] at hb hc1
  rw [show fbmInit.amplitude = 1 from rfl] at hc1
  have hmaxpos :
      (0:ℚ) < (fbmLoop noisef x y persistence lacunarity octaves.toNat fbmInit).maxValue := by
    linarith
  constructor
  · exact div_nonneg (by linarith) hmaxpos.le
  · rw [div_le_one hmaxpos]
    linarith

/-- C7 counterexample: the claim fails as stated for negative persistence.
With persistence = -1 < 1, lacunarity = 2 > 1, octaves = 3 ≥ 1, seed 0 and
(x,y) = (15/16, 5/16), every per-octave Perlin call returns a value in [0,1],
yet `generatePerlinFBM` returns (v0 - v1 + v2)/1 > 1. -/
theorem C7_fbm_range_counterexample :
    ((-1 : ℚ) < 1) ∧ ((1:ℚ) < 2) ∧ ((1:ℤ) ≤ 3) ∧
    (∀ i : ℕ, i < (3:ℤ).toNat →
      0 ≤ perlinNoise2D (perlinTableFun 0) (15/16 * 2 ^ i) (5/16 * 2 ^ i) ∧
        perlinNoise2D (perlinTableFun 0) (15/16 * 2 ^ i) (5/16 * 2 ^ i) ≤ 1) ∧
    ¬ (0 ≤ generatePerlinFBM (15/16) (5/16) 3 (-1) 2 0 ∧
        generatePerlinFBM (15/16) (5/16) 3 (-1) 2 0 ≤ 1) := by
  decide

/-- C7 amended: with persistence additionally nonnegative
(0 ≤ persistence < 1), lacunarity > 1 and octaves ≥ 1, if every per-octave
noise value lies in [0,1] then the fBM result `total/maxValue` lies in [0,1],
for both `generatePerlinFBM` and `generateSimplexFBM`. -/
theorem C7_fbm_range_amended :
    (∀ (x y persistence lacunarity : ℚ) (seed : ℕ) (octaves : ℤ),
      0 ≤ persistence → persistence < 1 → 1 < lacunarity → 1 ≤ octaves →
      (∀ i : ℕ, i < octaves.toNat →
        0 ≤ perlinNoise2D (perlinTableFun seed) (x * lacunarity ^ i) (y * lacunarity ^ i) ∧
          perlinNoise2D (perlinTableFun seed) (x * lacunarity ^ i) (y * lacunarity ^ i) ≤ 1) →
      0 ≤ generatePerlinFBM x y octaves persistence lacunarity seed ∧
        generatePerlinFBM x y octaves persistence lacunarity seed ≤ 1) ∧
    (∀ (x y persistence lacunarity : ℚ) (seed : ℕ) (octaves : ℤ),
      0 ≤ persistence → persistence < 1 → 1 < lacunarity → 1 ≤ octaves →
      (∀ i : ℕ, i < octaves.toNat →
        0 ≤ simplexNoise2D (simplexTableFun seed) (x * lacunarity ^ i) (y * lacunarity ^ i) ∧
          simplexNoise2D (simplexTableFun seed) (x * lacunarity ^ i) (y * lacunarity ^ i) ≤ 1) →
      0 ≤ generateSimplexFBM x y octaves persistence lacunarity seed ∧
        generateSimplexFBM x y octaves persistence lacunarity seed ≤ 1) := by
  constructor
  · intro x y persistence lacunarity seed octaves hp0 _ _ ho hn
    exact fbm_range (perlinNoise2D (perlinTableFun seed)) x y persistence lacunarity
      hp0 octaves ho hn
  · intro x y persistence lacunarity seed octaves hp0 _ _ ho hn
    exact fbm_range (simplexNoise2D (simplexTableFun seed)) x y persistence lacunarity
      hp0 octaves ho hn

/-- Witness for C7 amended: persistence 1/2, lacunarity 2, octaves 1, seed 0,
point (0,0); the single per-octave value is 1/2 for Perlin. -/
theorem C7_fbm_range_amended_witness :
    (0 ≤ generatePerlinFBM 0 0 1 (1/2) 2 0 ∧ generatePerlinFBM 0 0 1 (1/2) 2 0 ≤ 1) ∧
    (0 ≤ generateSimplexFBM 0 0 1 (1/2) 2 0 ∧ generateSimplexFBM 0 0 1 (1/2) 2 0 ≤ 1) :=
  ⟨C7_fbm_range_amended.1 0 0 (1/2) 2 0 1 (by norm_num) (by norm_num) (by norm_num)
      (by norm_num) (by decide),
   C7_fbm_range_amended.2 0 0 (1/2) 2 0 1 (by norm_num) (by norm_num) (by norm_num)
      (by norm_num) (by decide)⟩

/-- C8: with octaves = 1 the fBM functions return the base noise value
exactly: `generatePerlinFBM(x,y,1,p,l,seed)` equals the member call
`noise(x,y,0)` of a fresh seed-built Perlin engine, and
`generateSimplexFBM(x,y,1,p,l,seed)` equals the member call `noise2D(x,y)` of
a fresh seed-built Simplex engine. -/
theorem C8_fbm_single_octave (x y persistence lacunarity : ℚ) (seed : ℕ) :
    generatePerlinFBM x y 1 persistence lacunarity seed =
      perlinNoise (perlinTableFun seed) x y 0 ∧
    generateSimplexFBM x y 1 persistence lacunarity seed =
      simplexNoise2D (simplexTableFun seed) x y := by
  constructor
  · show (perlinFBMState x y 1 persistence lacunarity seed).total /
        (perlinFBMState x y 1 persistence lacunarity seed).maxValue = _
    simp [perlinFBMState, fbmLoop, fbmInit, perlinNoise2D]
  · show (simplexFBMState x y 1 persistence lacunarity seed).total /
        (simplexFBMState x y 1 persistence lacunarity seed).maxValue = _
    simp [simplexFBMState, fbmLoop, fbmInit]

-- =========================================================================
-- Diamond-Square (class DiamondSquare).
-- =========================================================================

/-- State of a `DiamondSquare` generator: grid side `size`, the heightmap as
a list of columns (`heightmap[x][y]` has outer index `x`), and the random
engine (`std::mt19937` + `uniform_real_distribution(-1,1)`) modelled as a
draw stream `draws` with `k` the index of the next draw. -/
structure DS where
  size : ℤ
  grid : List (List ℚ)
  draws : ℕ → ℚ
  k : ℕ

/-- One draw of `dist(rng)`. -/
def dsDraw (st : DS) : ℚ × DS :=
  (st.draws st.k, { st with k := st.k + 1 })

/-- `DiamondSquare::getHeight`: optional toroidal wrap `(x + size) % size`
(C truncated `%`), then a bounds check returning 0 out of bounds, else the
grid value. -/
def getHeight (st : DS) (x y : ℤ) (wrap : Bool) : ℚ :=
  let x' := if wrap then (x + st.size).tmod st.size else x
  let y' := if wrap then (y + st.size).tmod st.size else y
  if x' < 0 ∨ st.size ≤ x' ∨ y' < 0 ∨ st.size ≤ y' then 0
  else (st.grid.getD x'.toNat []).getD y'.toNat 0

/-- `DiamondSquare::setHeight`: writes only when the position is in bounds. -/
def setHeight (st : DS) (x y : ℤ) (v : ℚ) : DS :=
  if 0 ≤ x ∧ x < st.size ∧ 0 ≤ y ∧ y < st.size then
    { st with grid := st.grid.set x.toNat ((st.grid.getD x.toNat []).set y.toNat v) }
  else st

/-- `DiamondSquare::diamondStep`: average of the four diagonal corners read
with `getHeight`'s default `wrap = false` (the call sites omit the wrap
argument), plus the displacement `dist(rng) * randomRange * 2 - randomRange`. -/
def diamondStep (st : DS) (x y stepSize : ℤ) (randomRange : ℚ) : DS :=
  let avg := (getHeight st (x - stepSize) (y - stepSize) false +
              getHeight st (x + stepSize) (y - stepSize) false +
              getHeight st (x - stepSize) (y + stepSize) false +
              getHeight st (x + stepSize) (y + stepSize) false) / 4
  let d := dsDraw st
  setHeight d.2 x y (avg + (d.1 * randomRange * 2 - randomRange))

/-- Modelled from the spec: out-of-bounds reads during the diamond step
always act as height 0 in the 4-corner average — all four diagonal neighbors
are included (the divisor is always 4), out-of-bounds ones contribute 0, and
no wrapping is applied regardless of the wrap mode. -/
def diamondStepSpecModel (st : DS) (x y stepSize : ℤ) (randomRange : ℚ) : DS :=
  let read := fun (a b : ℤ) =>
    if 0 ≤ a ∧ a < st.size ∧ 0 ≤ b ∧ b < st.size then
      (st.grid.getD a.toNat []).getD b.toNat 0
    else 0
  let avg := (read (x - stepSize) (y - stepSize) + read (x + stepSize) (y - stepSize) +
              read (x - stepSize) (y + stepSize) + read (x + stepSize) (y + stepSize)) / 4
  let d := dsDraw st
  setHeight d.2 x y (avg + (d.1 * randomRange * 2 - randomRange))

/-- The (sum, count) accumulation of `DiamondSquare::squareStep` over the four
axis-aligned neighbors, each guarded by `wrap || in-range`. -/
def squareAcc (st : DS) (x y stepSize : ℤ) (wrap : Bool) : ℚ × ℕ :=
  let sc0 : ℚ × ℕ := (0, 0)
  let sc1 := if wrap = true ∨ 0 ≤ y - stepSize
    then (sc0.1 + getHeight st x (y - stepSize) wrap, sc0.2 + 1) else sc0
  let sc2 := if wrap = true ∨ x + stepSize < st.size
    then (sc1.1 + getHeight st (x + stepSize) y wrap, sc1.2 + 1) else sc1
  let sc3 := if wrap = true ∨ y + stepSize < st.size
    then (sc2.1 + getHeight st x (y + stepSize) wrap, sc2.2 + 1) else sc2
  if wrap = true ∨ 0 ≤ x - stepSize
    then (sc3.1 + getHeight st (x - stepSize) y wrap, sc3.2 + 1) else sc3

/-- `DiamondSquare::squareStep`: neighbor average `sum / count` plus the
random displacement. -/
def squareStep (st : DS) (x y stepSize : ℤ) (randomRange : ℚ) (wrap : Bool) : DS :=
  let sc := squareAcc st x y stepSize wrap
  let d := dsDraw st
  setHeight d.2 x y (sc.1 / (sc.2 : ℚ) + (d.1 * randomRange * 2 - randomRange))

/-- Index list of the C loop `for (v = start; v < bound; v += step)` for
positive `step`. -/
def idxList (start step bound : ℤ) : List ℤ :=
  (List.range ((bound - start + step - 1) / step).toNat).map fun i : ℕ => start + step * (i : ℤ)

/-- Fuel-driven unfolding of `generate`'s outer loop condition; `s.toNat`
fuel always suffices because the argument at least halves each time. -/
def stepSizesAux : ℕ → ℤ → List ℤ
  | 0, _ => []
  | fuel + 1, s => if 1 < s then s :: stepSizesAux fuel (s / 2) else []

/-- The decreasing step sizes of `generate`'s outer loop:
`for (stepSize = size - 1; stepSize > 1; stepSize /= 2)`. -/
def stepSizes (s : ℤ) : List ℤ := stepSizesAux s.toNat s

/-- Diamond phase of a round: `for (y = halfStep; y < size; y += stepSize)
for (x = halfStep; x < size; x += stepSize) diamondStep(x, y, halfStep, r)`. -/
def diamondPhase (st : DS) (stepSize halfStep : ℤ) (randomRange : ℚ) : DS :=
  (idxList halfStep stepSize st.size).foldl (fun s1 y =>
    (idxList halfStep stepSize s1.size).foldl (fun s2 x =>
      diamondStep s2 x y halfStep randomRange) s1) st

/-- Square phase of a round: `for (y = 0; y < size; y += halfStep)
for (x = (y + halfStep) % stepSize; x < size; x += stepSize)
squareStep(x, y, halfStep, r, wrap)`. -/
def squarePhase (st : DS) (stepSize halfStep : ℤ) (randomRange : ℚ) (wrap : Bool) : DS :=
  (idxList 0 halfStep st.size).foldl (fun s1 y =>
    (idxList ((y + halfStep).tmod stepSize) stepSize s1.size).foldl (fun s2 x =>
      squareStep s2 x y halfStep randomRange wrap) s1) st

/-- One round of `generate` at a given `stepSize` (`halfStep = stepSize / 2`). -/
def dsRound (st : DS) (stepSize : ℤ) (randomRange : ℚ) (wrap : Bool) : DS :=
  squarePhase (diamondPhase st stepSize (stepSize / 2) randomRange)
    stepSize (stepSize / 2) randomRange wrap

/-- The zero-filled `size × size` grid allocated by the constructor. -/
def dsInit (size : ℤ) (draws : ℕ → ℚ) : DS :=
  ⟨size, List.replicate size.toNat (List.replicate size.toNat 0), draws, 0⟩

/-- Corner initialization and all rounds of `generate` before normalization;
`decay` stands for `pow(2.0f, -roughness)`, the per-round factor on
`randomRange`.  (The corner stores use the bounds-guarded write, which for
any `size ≥ 1` is exactly the source's unchecked `heightmap[i][j] = ...`.) -/
def dsRaw (size : ℤ) (draws : ℕ → ℚ) (decay : ℚ) (wrap : Bool) : DS :=
  let st0 := dsInit size draws
  let d0 := dsDraw st0
  let st1 := setHeight d0.2 0 0 d0.1
  let d1 := dsDraw st1
  let st2 := setHeight d1.2 (size - 1) 0 d1.1
  let d2 := dsDraw st2
  let st3 := setHeight d2.2 0 (size - 1) d2.1
  let d3 := dsDraw st3
  let st4 := setHeight d3.2 (size - 1) (size - 1) d3.1
  ((stepSizes (size - 1)).foldl (fun p ss =>
      (dsRound p.1 ss p.2 wrap, p.2 * decay)) (st4, (1 : ℚ))).1

/-- The cell traversal order of `normalize`: `for y { for x { ... } }` over
`[0, size)`, visiting `heightmap[x][y]`. -/
def cellIdx (n : ℕ) : List (ℕ × ℕ) :=
  (List.range n).flatMap fun y => (List.range n).map fun x => (x, y)

/-- The heightmap values in `normalize`'s traversal order. -/
def cellVals (g : List (List ℚ)) (n : ℕ) : List ℚ :=
  (cellIdx n).map fun c => (g.getD c.1 []).getD c.2 0

/-- The minimum computed by `normalize`: a fold of `min` over all cells
seeded with `heightmap[0][0]`. -/
def minVal (g : List (List ℚ)) (n : ℕ) : ℚ :=
  (cellVals g n).foldl min ((g.getD 0 []).getD 0 0)

/-- The maximum computed by `normalize`. -/
def maxVal (g : List (List ℚ)) (n : ℕ) : ℚ :=
  (cellVals g n).foldl max ((g.getD 0 []).getD 0 0)

/-- `DiamondSquare::normalize`: rescale every cell to `(v - min) / range`
iff `range = max - min` exceeds the epsilon 0.0001 (the float literal
`0.0001f`, idealized as 1/10000). -/
def normalizeGrid (g : List (List ℚ)) (n : ℕ) : List (List ℚ) :=
  if 1/10000 < maxVal g n - minVal g n then
    g.map (List.map fun v => (v - minVal g n) / (maxVal g n - minVal g n))
  else g

/-- `DiamondSquare::generate`: corners, rounds, then normalization. -/
def dsGenerate (size : ℤ) (draws : ℕ → ℚ) (decay : ℚ) (wrap : Bool) : DS :=
  let st := dsRaw size draws decay wrap
  { st with grid := normalizeGrid st.grid st.size.toNat }

/-- `generateDiamondSquareNoise`: construct a generator, `generate`, return
the heightmap.  There is no validation of `size` and no failure path. -/
def generateDiamondSquareNoise (size : ℤ) (draws : ℕ → ℚ) (decay : ℚ)
    (wrap : Bool) : List (List ℚ) :=
  (dsGenerate size draws decay wrap).grid

theorem getHeight_false_eq (st : DS) (a b : ℤ) :
    getHeight st a b false =
      if 0 ≤ a ∧ a < st.size ∧ 0 ≤ b ∧ b < st.size then
        (st.grid.getD a.toNat []).getD b.toNat 0
      else 0 := by
  show (if a < 0 ∨ st.size ≤ a ∨ b < 0 ∨ st.size ≤ b then (0:ℚ)
      else (st.grid.getD a.toNat []).getD b.toNat 0) = _
  by_cases hc : 0 ≤ a ∧ a < st.size ∧ 0 ≤ b ∧ b < st.size
  · rw [if_neg (by omega), if_pos hc]
  · rw [if_pos (by omega), if_neg hc]

/-- C9: in the diamond step, every read of a grid position outside bounds
contributes height 0 to the 4-corner average (first conjunct: unwrapped
out-of-bounds reads return 0), it is never skipped and never wrapped even
when the generation runs with wrap = true (second conjunct: `diamondStep`,
whose call site in `generate` passes no wrap flag, coincides with the
spec-model average in which all four diagonal corners are always counted,
out-of-bounds ones as 0, with no wrapping); the embedded functions are total,
so no error is ever raised. -/
theorem C9_diamond_oob_reads :
    (∀ (st : DS) (x y : ℤ),
      ¬ (0 ≤ x ∧ x < st.size ∧ 0 ≤ y ∧ y < st.size) → getHeight st x y false = 0) ∧
    (∀ (st : DS) (x y stepSize : ℤ) (randomRange : ℚ),
      diamondStep st x y stepSize randomRange =
        diamondStepSpecModel st x y stepSize randomRange) := by
  constructor
  · intro st x y h
    rw [getHeight_false_eq, if_neg h]
  · intro st x y s r
    simp only [diamondStep, diamondStepSpecModel, getHeight_false_eq]

/-- Witness for C9: a 3 × 3 generator state, the out-of-bounds read at
(-1, 0), and a concrete diamond step. -/
theorem C9_diamond_oob_reads_witness :
    getHeight (dsInit 3 (fun _ => 0)) (-1) 0 false = 0 ∧
      diamondStep (dsInit 3 (fun _ => 0)) 1 1 1 1 =
        diamondStepSpecModel (dsInit 3 (fun _ => 0)) 1 1 1 1 :=
  ⟨C9_diamond_oob_reads.1 (dsInit 3 (fun _ => 0)) (-1) 0 (by decide),
   C9_diamond_oob_reads.2 (dsInit 3 (fun _ => 0)) 1 1 1 1⟩

/-- C4: the claim that invalid sizes fail fast is contradicted by the code:
there is no validation and no failure path; at size 10 (not of the form
2^n + 1) construction and generation run to completion and return an
ordinary 10 × 10 grid. -/
theorem C4_no_size_validation :
    (generateDiamondSquareNoise 10 (fun _ => 1) (1/2) false).length = 10 ∧
      ∀ r ∈ generateDiamondSquareNoise 10 (fun _ => 1) (1/2) false, r.length = 10 := by
  decide

-- =========================================================================
-- Grid dimension invariants (towards claim C5).
-- =========================================================================

/-- Rectangularity of a heightmap: `n` columns, each of `n` cells. -/
def gridDims (g : List (List ℚ)) (n : ℕ) : Prop :=
  g.length = n ∧ ∀ r ∈ g, r.length = n

/-- Well-formedness of a generator state of side `n`. -/
def dsWF (st : DS) (n : ℕ) : Prop :=
  st.size = (n : ℤ) ∧ gridDims st.grid n

theorem dsWF_mk_k {st : DS} {n : ℕ} (h : dsWF st n) (m : ℕ) :
    dsWF { st with k := m } n := ⟨h.1, h.2⟩

theorem dsWF_setHeight {st : DS} {n : ℕ} (h : dsWF st n) {x y : ℤ} {v : ℚ} :
    dsWF (setHeight st x y v) n := by
  unfold setHeight
  split_ifs with hc
  · refine ⟨h.1, ?_, ?_⟩
    · simpa only [List.length_set] using h.2.1
    · intro r hr
      rcases List.mem_or_eq_of_mem_set hr with hr' | hr'
      · exact h.2.2 r hr'
      · subst hr'
        rw [List.length_set]
        have hsz : st.size = (n : ℤ) := h.1
        have hx : x.toNat < st.grid.length := by
          rw [h.2.1]
          omega
        rw [List.getD_eq_getElem _ _ hx]
        exact h.2.2 _ (List.getElem_mem hx)
  · exact h

theorem dsWF_diamondStep {st : DS} {n : ℕ} (h : dsWF st n) {x y s : ℤ} {r : ℚ} :
    dsWF (diamondStep st x y s r) n :=
  dsWF_setHeight (dsWF_mk_k h _)

theorem dsWF_squareStep {st : DS} {n : ℕ} (h : dsWF st n) {x y s : ℤ} {r : ℚ}
    {wrap : Bool} : dsWF (squareStep st x y s r wrap) n :=
  dsWF_setHeight (dsWF_mk_k h _)

theorem foldl_pres {σ α : Type*} (P : σ → Prop) (f : σ → α → σ)
    (hf : ∀ s a, P s → P (f s a)) : ∀ (l : List α) (s : σ), P s → P (l.foldl f s) := by
  intro l
  induction l with
  | nil => intro s h; exact h
  | cons a t ih => intro s h; exact ih _ (hf s a h)

theorem dsWF_diamondPhase {st : DS} {n : ℕ} (h : dsWF st n) {ss hs : ℤ} {r : ℚ} :
    dsWF (diamondPhase st ss hs r) n := by
  unfold diamondPhase
  exact foldl_pres (fun s => dsWF s n) _
    (fun s1 y h1 => foldl_pres (fun s => dsWF s n) _
      (fun s2 x h2 => dsWF_diamondStep h2) _ _ h1) _ _ h

theorem dsWF_squarePhase {st : DS} {n : ℕ} (h : dsWF st n) {ss hs : ℤ} {r : ℚ}
    {wrap : Bool} : dsWF (squarePhase st ss hs r wrap) n := by
  unfold squarePhase
  exact foldl_pres (fun s => dsWF s n) _
    (fun s1 y h1 => foldl_pres (fun s => dsWF s n) _
      (fun s2 x h2 => dsWF_squareStep h2) _ _ h1) _ _ h

theorem dsWF_dsRound {st : DS} {n : ℕ} (h : dsWF st n) {ss : ℤ} {r : ℚ} {wrap : Bool} :
    dsWF (dsRound st ss r wrap) n :=
  dsWF_squarePhase (dsWF_diamondPhase h)

theorem dsWF_dsInit (size : ℤ) (draws : ℕ → ℚ) (h : 0 ≤ size) :
    dsWF (dsInit size draws) size.toNat := by
  refine ⟨(Int.toNat_of_nonneg h).symm, List.length_replicate _ _, ?_⟩
  intro r hr
  rw [(List.mem_replicate.mp hr).2]
  exact List.length_replicate _ _

theorem dsWF_roundsFold {n : ℕ} (wrap : Bool) (decay : ℚ) :
    ∀ (l : List ℤ) (p : DS × ℚ), dsWF p.1 n →
      dsWF ((l.foldl (fun q ss => (dsRound q.1 ss q.2 wrap, q.2 * decay)) p).1) n := by
  intro l
  induction l with
  | nil => intro p h; exact h
  | cons a t ih => intro p h; exact ih _ (dsWF_dsRound h)

theorem dsWF_dsRaw (size : ℤ) (draws : ℕ → ℚ) (decay : ℚ) (wrap : Bool) (h : 0 ≤ size) :
    dsWF (dsRaw size draws decay wrap) size.toNat := by
  unfold dsRaw
  exact dsWF_roundsFold wrap decay _ _
    (dsWF_setHeight (dsWF_mk_k (dsWF_setHeight (dsWF_mk_k (dsWF_setHeight (dsWF_mk_k
      (dsWF_setHeight (dsWF_mk_k (dsWF_dsInit size draws h) _)) _)) _)) _))

-- =========================================================================
-- Min/max of the grid under the affine rescale (towards claim C5).
-- =========================================================================

theorem min_affine (a b lo r : ℚ) (hr : 0 ≤ r) :
    min ((a - lo) / r) ((b - lo) / r) = (min a b - lo) / r := by
  rw [min_div_div_right hr, min_sub_sub_right]

theorem max_affine (a b lo r : ℚ) (hr : 0 ≤ r) :
    max ((a - lo) / r) ((b - lo) / r) = (max a b - lo) / r := by
  rw [max_div_div_right hr, max_sub_sub_right]

theorem foldl_min_map_affine (lo r : ℚ) (hr : 0 ≤ r) :
    ∀ (l : List ℚ) (a : ℚ),
      (l.map fun v => (v - lo) / r).foldl min ((a - lo) / r) =
        (l.foldl min a - lo) / r := by
  intro l
  induction l with
  | nil => intro a; rfl
  | cons b t ih =>
    intro a
    simp only [List.map_cons, List.foldl_cons]
    rw [min_affine a b lo r hr]
    exact ih (min a b)

theorem foldl_max_map_affine (lo r : ℚ) (hr : 0 ≤ r) :
    ∀ (l : List ℚ) (a : ℚ),
      (l.map fun v => (v - lo) / r).foldl max ((a - lo) / r) =
        (l.foldl max a - lo) / r := by
  intro l
  induction l with
  | nil => intro a; rfl
  | cons b t ih =>
    intro a
    simp only [List.map_cons, List.foldl_cons]
    rw [max_affine a b lo r hr]
    exact ih (max a b)

theorem cellIdx_mem {n : ℕ} {c : ℕ × ℕ} (h : c ∈ cellIdx n) : c.1 < n ∧ c.2 < n := by
  unfold cellIdx at h
  simp only [List.mem_flatMap, List.mem_map, List.mem_range] at h
  obtain ⟨y, hy, x, hx, rfl⟩ := h
  exact ⟨hx, hy⟩

theorem getD_getD_map {g : List (List ℚ)} {n : ℕ} (hd : gridDims g n) (f : ℚ → ℚ)
    {a b : ℕ} (ha : a < n) (hb : b < n) :
    ((g.map (List.map f)).getD a []).getD b 0 = f ((g.getD a []).getD b 0) := by
  have ha' : a < g.length := hd.1 ▸ ha
  have hb' : b < (g[a]).length := by
    rw [hd.2 _ (List.getElem_mem ha')]
    exact hb
  have e1 : (g.map (List.map f)).getD a [] = List.map f g[a] := by
    rw [List.getD_eq_getElem _ _ (by simpa using ha'), List.getElem_map]
  rw [e1, List.getD_eq_getElem _ _ (by simpa using hb'), List.getElem_map,
    List.getD_eq_getElem g _ ha', List.getD_eq_getElem _ _ hb']

theorem cellVals_map {g : List (List ℚ)} {n : ℕ} (hd : gridDims g n) (f : ℚ → ℚ) :
    cellVals (g.map (List.map f)) n = (cellVals g n).map f := by
  unfold cellVals
  rw [List.map_map]
  refine List.map_congr_left fun c hc => ?_
  obtain ⟨h1, h2⟩ := cellIdx_mem hc
  simp only [Function.comp_apply]
  exact getD_getD_map hd f h1 h2

theorem normalize_minmax {g : List (List ℚ)} {n : ℕ} (hd : gridDims g n) (hn : 0 < n)
    (hr : 1/10000 < maxVal g n - minVal g n) :
    minVal (normalizeGrid g n) n = 0 ∧ maxVal (normalizeGrid g n) n = 1 := by
  have hrpos : (0:ℚ) < maxVal g n - minVal g n := lt_trans (by norm_num) hr
  unfold normalizeGrid
  rw [if_pos hr]
  have h00 := getD_getD_map hd
    (fun v => (v - minVal g n) / (maxVal g n - minVal g n)) hn hn
  have hcv := cellVals_map hd (fun v => (v - minVal g n) / (maxVal g n - minVal g n))
  constructor
  · show (cellVals _ n).foldl min _ = 0
    rw [hcv, h00, foldl_min_map_affine _ _ hrpos.le]
    show (minVal g n - minVal g n) / _ = 0
    rw [sub_self, zero_div]
  · show (cellVals _ n).foldl max _ = 1
    rw [hcv, h00, foldl_max_map_affine _ _ hrpos.le]
    show (maxVal g n - minVal g n) / (maxVal g n - minVal g n) = 1
    exact div_self (ne_of_gt hrpos)

/-- C5: for every valid size 2^n + 1 (n ≥ 1), every draw stream, decay factor
and wrap flag, the heightmap returned by generate has minimum 0 and maximum 1,
unless the pre-normalization range is at most the epsilon 0.0001, in which
case normalization is skipped and every cell keeps its pre-normalization
value. -/
theorem C5_generate_normalization (n : ℕ) (size : ℤ) (draws : ℕ → ℚ) (decay : ℚ)
    (wrap : Bool) (hn : 1 ≤ n) (hsize : size = 2 ^ n + 1) :
    (1/10000 < maxVal (dsRaw size draws decay wrap).grid size.toNat -
        minVal (dsRaw size draws decay wrap).grid size.toNat →
      minVal (generateDiamondSquareNoise size draws decay wrap) size.toNat = 0 ∧
        maxVal (generateDiamondSquareNoise size draws decay wrap) size.toNat = 1) ∧
    (¬ (1/10000 < maxVal (dsRaw size draws decay wrap).grid size.toNat -
        minVal (dsRaw size draws decay wrap).grid size.toNat) →
      generateDiamondSquareNoise size draws decay wrap =
        (dsRaw size draws decay wrap).grid) := by
  have hpow : (0:ℤ) < 2 ^ n := pow_pos (by norm_num) n
  have hpos : (0:ℤ) ≤ size := by omega
  have hwf := dsWF_dsRaw size draws decay wrap hpos
  have hsz : (dsRaw size draws decay wrap).size = size := by
    rw [hwf.1, Int.toNat_of_nonneg hpos]
  have hn0 : 0 < size.toNat := by omega
  have hgen : generateDiamondSquareNoise size draws decay wrap =
      normalizeGrid (dsRaw size draws decay wrap).grid size.toNat := by
    show ({ dsRaw size draws decay wrap with
      grid := normalizeGrid (dsRaw size draws decay wrap).grid
        (dsRaw size draws decay wrap).size.toNat } : DS).grid = _
    rw [hsz]
  constructor
  · intro hr
    rw [hgen]
    exact normalize_minmax hwf.2 hn0 hr
  · intro hr
    rw [hgen]
    unfold normalizeGrid
    rw [if_neg hr]

/-- Concrete draw stream for witnesses: the n-th draw is the rational n. -/
def sampleDraws (m : ℕ) : ℚ := Rat.divInt (Int.ofNat m) 1

/-- Witness for C5 at n = 1, size 3, a concrete draw stream (whose
pre-normalization range exceeds the epsilon). -/
theorem C5_generate_normalization_witness :
    (1/10000 < maxVal (dsRaw 3 sampleDraws (1/2) false).grid (3:ℤ).toNat -
        minVal (dsRaw 3 sampleDraws (1/2) false).grid (3:ℤ).toNat) ∧
    (minVal (generateDiamondSquareNoise 3 sampleDraws (1/2) false) (3:ℤ).toNat = 0 ∧
      maxVal (generateDiamondSquareNoise 3 sampleDraws (1/2) false) (3:ℤ).toNat = 1) :=
  ⟨by decide,
   (C5_generate_normalization 1 3 sampleDraws (1/2) false (le_refl 1) (by decide)).1
     (by decide)⟩

-- =========================================================================
-- Claim C10: the square-step neighbor count never reaches zero.
-- =========================================================================

theorem stepSizesAux_mem : ∀ (fuel : ℕ) (s x : ℤ), x ∈ stepSizesAux fuel s →
    1 < x ∧ x ≤ s := by
  intro fuel
  induction fuel with
  | zero => intro s x h; simp [stepSizesAux] at h
  | succ m ih =>
    intro s x h
    simp only [stepSizesAux] at h
    split_ifs at h with hs
    · rcases List.mem_cons.mp h with rfl | h'
      · exact ⟨hs, le_refl x⟩
      · obtain ⟨h1, h2⟩ := ih _ _ h'
        exact ⟨h1, by omega⟩
    · simp at h

theorem stepSizes_mem {s x : ℤ} (h : x ∈ stepSizes s) : 1 < x ∧ x ≤ s :=
  stepSizesAux_mem _ _ _ h

theorem idxList_mem {start step bound v : ℤ} (hstep : 0 < step)
    (hv : v ∈ idxList start step bound) : start ≤ v ∧ v < bound := by
  unfold idxList at hv
  simp only [List.mem_map, List.mem_range] at hv
  obtain ⟨i, hi, rfl⟩ := hv
  constructor
  · have h0 : (0:ℤ) ≤ step * (i:ℤ) := mul_nonneg hstep.le (by exact_mod_cast Nat.zero_le i)
    linarith
  · have h2 : (i:ℤ) + 1 ≤ (bound - start + step - 1) / step := by omega
    have h3 := (Int.le_ediv_iff_mul_le hstep).mp h2
    nlinarith

theorem squareAcc_count (st : DS) (x y s : ℤ) (wrap : Bool) :
    (squareAcc st x y s wrap).2 =
      ((if wrap = true ∨ 0 ≤ y - s then 1 else 0) +
       (if wrap = true ∨ x + s < st.size then 1 else 0) +
       (if wrap = true ∨ y + s < st.size then 1 else 0) +
       (if wrap = true ∨ 0 ≤ x - s then 1 else 0) : ℕ) := by
  unfold squareAcc
  split_ifs <;> rfl

/-- C10: for every valid size 2^n + 1 (n ≥ 1) and any wrap flag, every
squareStep invocation reached by generate (step sizes from the outer loop,
(x, y) from the square-phase loops) accumulates at least one neighbor, so the
average `sum / count` never divides by zero. -/
theorem C10_square_count_positive (st : DS) (wrap : Bool) (n : ℕ) (ss y x : ℤ)
    (hn : 1 ≤ n) (hsize : st.size = 2 ^ n + 1)
    (hss : ss ∈ stepSizes (st.size - 1))
    (hy : y ∈ idxList 0 (ss / 2) st.size)
    (hx : x ∈ idxList ((y + ss / 2).tmod ss) ss st.size) :
    1 ≤ (squareAcc st x y (ss / 2) wrap).2 := by
  obtain ⟨hss1, hss2⟩ := stepSizes_mem hss
  have hhs : 0 < ss / 2 := by omega
  obtain ⟨hy0, hy1⟩ := idxList_mem hhs hy
  have hkey : 0 ≤ y - ss / 2 ∨ y + ss / 2 < st.size := by omega
  rw [squareAcc_count]
  cases wrap with
  | true => simp
  | false =>
    simp only [Bool.false_eq_true, false_or]
    rcases hkey with hk | hk <;> split_ifs <;> omega

/-- Witness for C10: size 3 (n = 1), the square step at (x, y) = (1, 0) in
the round with stepSize 2. -/
theorem C10_square_count_positive_witness :
    1 ≤ (squareAcc (dsInit 3 sampleDraws) 1 0 ((2:ℤ) / 2) false).2 :=
  C10_square_count_positive (dsInit 3 sampleDraws) false 1 2 0 1 (le_refl 1)
    (by decide) (by decide) (by decide) (by decide)
